import Mathlib

/-!
Verification of the json-diff side-by-side diff/merge tool (src/main.rs)
against its natural-language specification.

The embedding models file bytes as `List Nat` (one `Nat` per byte, `10` is
the newline byte).  Rust operations that can panic (slice indexing, array
indexing) are modelled as `Option`-valued functions where `none` denotes a
panic.  The third-party diff engine (imara-diff) is not part of the
repository source; its output is modelled from the specification (§4.3) as
a stream of `(before, after)` change pairs which the repository's
`DiffSink` folds into the hunk sequence.
-/

namespace JsonDiff

/-- File contents are sequences of bytes; we use `Nat` for a byte. -/
abbrev Bytes := List Nat

/-- The newline byte `'\n'`. -/
def NL : Nat := 10

/-- Positions (0-based byte indices, offset by the accumulator `i`) of the
newline byte in a byte sequence, in byte order.  Models the
`par_iter().enumerate().filter(b == '\n')` scan of
`LazyDiffView::from_source`, whose result is collected in byte order. -/
def newlinePositionsFrom (i : Nat) : Bytes → List Nat
  | [] => []
  | b :: rest =>
    if b = NL then i :: newlinePositionsFrom (i + 1) rest
    else newlinePositionsFrom (i + 1) rest

/-- The line-offset array built by `LazyDiffView::from_source`:
`vec![0]` extended with `p + 1` for every newline position `p`. -/
def lineOffsets (content : Bytes) : List Nat :=
  0 :: (newlinePositionsFrom 0 content).map (· + 1)

/-- The lazy file view: owned byte buffer plus the line-offset array
(`struct LazyDiffView`). -/
structure LazyDiffView where
  content : Bytes
  line_offsets : List Nat
deriving DecidableEq

/-- Models `LazyDiffView::from_source`: build the offsets from the content. -/
def LazyDiffView.from_source (content : Bytes) : LazyDiffView :=
  ⟨content, lineOffsets content⟩

/-- Models `LazyDiffView::len`: the length of the offset array. -/
def LazyDiffView.len (v : LazyDiffView) : Nat :=
  v.line_offsets.length

/-- A byte-level UTF-8 validity check, modelling Rust's
`std::str::from_utf8(..).is_ok()` (RFC 3629 shortest-form encoding). -/
def utf8Valid : Bytes → Bool
  | [] => true
  | b :: rest =>
    if b ≤ 0x7F then utf8Valid rest
    else if 0xC2 ≤ b ∧ b ≤ 0xDF then
      match rest with
      | c1 :: r => decide (0x80 ≤ c1 ∧ c1 ≤ 0xBF) && utf8Valid r
      | [] => false
    else if b = 0xE0 then
      match rest with
      | c1 :: c2 :: r =>
        decide (0xA0 ≤ c1 ∧ c1 ≤ 0xBF) && decide (0x80 ≤ c2 ∧ c2 ≤ 0xBF) && utf8Valid r
      | _ => false
    else if (0xE1 ≤ b ∧ b ≤ 0xEC) ∨ b = 0xEE ∨ b = 0xEF then
      match rest with
      | c1 :: c2 :: r =>
        decide (0x80 ≤ c1 ∧ c1 ≤ 0xBF) && decide (0x80 ≤ c2 ∧ c2 ≤ 0xBF) && utf8Valid r
      | _ => false
    else if b = 0xED then
      match rest with
      | c1 :: c2 :: r =>
        decide (0x80 ≤ c1 ∧ c1 ≤ 0x9F) && decide (0x80 ≤ c2 ∧ c2 ≤ 0xBF) && utf8Valid r
      | _ => false
    else if b = 0xF0 then
      match rest with
      | c1 :: c2 :: c3 :: r =>
        decide (0x90 ≤ c1 ∧ c1 ≤ 0xBF) && decide (0x80 ≤ c2 ∧ c2 ≤ 0xBF) &&
          decide (0x80 ≤ c3 ∧ c3 ≤ 0xBF) && utf8Valid r
      | _ => false
    else if 0xF1 ≤ b ∧ b ≤ 0xF3 then
      match rest with
      | c1 :: c2 :: c3 :: r =>
        decide (0x80 ≤ c1 ∧ c1 ≤ 0xBF) && decide (0x80 ≤ c2 ∧ c2 ≤ 0xBF) &&
          decide (0x80 ≤ c3 ∧ c3 ≤ 0xBF) && utf8Valid r
      | _ => false
    else if b = 0xF4 then
      match rest with
      | c1 :: c2 :: c3 :: r =>
        decide (0x80 ≤ c1 ∧ c1 ≤ 0x8F) && decide (0x80 ≤ c2 ∧ c2 ≤ 0xBF) &&
          decide (0x80 ≤ c3 ∧ c3 ≤ 0xBF) && utf8Valid r
      | _ => false
    else false

/-- A contiguous byte slice `content[start..stop)` (Rust `&content[start..stop]`
after its bound checks have passed). -/
def sliceRange (content : Bytes) (start stop : Nat) : Bytes :=
  (content.drop start).take (stop - start)

/-- Models `LazyDiffView::get_line`.  The outer `Option` models panics (`none` =
panic); the inner `Option` is the Rust `Option<&str>` return value, whose
payload we keep as the line's bytes. -/
def LazyDiffView.get_line (v : LazyDiffView) (line_idx : Nat) :
    Option (Option Bytes) :=
  if v.line_offsets.length ≤ line_idx then some none
  else
    match v.line_offsets.get? line_idx with
    | none => none
    | some start =>
      let e :=
        if line_idx + 1 < v.line_offsets.length then
          v.line_offsets.getD (line_idx + 1) 0 - 1
        else v.content.length
      if start > e then some (some [])
      else
        let e2 := min e v.content.length
        if start > e2 then none
        else
          let line := sliceRange v.content start e2
          some (if utf8Valid line then some line else none)

/-- The resolution of a hunk (`enum Resolution`). -/
inductive Resolution where
  | Unresolved
  | PickLeft
  | PickRight
  | PickBoth
deriving DecidableEq

/-- The hunk type (`similar::DiffOp`), as stored and consumed by the tool:
four tagged cases carrying line indices and lengths. -/
inductive DiffOp where
  | Equal (old_index new_index len : Nat)
  | Delete (old_index old_len new_index : Nat)
  | Insert (old_index new_index new_len : Nat)
  | Replace (old_index old_len new_index new_len : Nat)
deriving DecidableEq

/-- Is the hunk an `Equal` hunk (`matches!(op, DiffOp::Equal { .. })`)? -/
def DiffOp.isEqualOp : DiffOp → Bool
  | .Equal _ _ _ => true
  | _ => false

/-- The left-consuming length of a hunk: `len` for Equal, `old_len` for
Delete/Replace, `0` for Insert. -/
def DiffOp.leftConsumed : DiffOp → Nat
  | .Equal _ _ len => len
  | .Delete _ old_len _ => old_len
  | .Insert _ _ _ => 0
  | .Replace _ old_len _ _ => old_len

/-- The right-consuming length of a hunk: `len` for Equal, `new_len` for
Insert/Replace, `0` for Delete. -/
def DiffOp.rightConsumed : DiffOp → Nat
  | .Equal _ _ len => len
  | .Delete _ _ _ => 0
  | .Insert _ _ new_len => new_len
  | .Replace _ _ _ new_len => new_len

/-- One `(before, after)` change pair emitted by the diff engine
(`process_change(before: Range<u32>, after: Range<u32>)`). -/
structure Change where
  bo : Nat
  be : Nat
  ao : Nat
  ae : Nat
deriving DecidableEq

/-- The mutable state of `DiffSink`. -/
structure SinkState where
  ops : List DiffOp
  last_old_idx : Nat
  last_new_idx : Nat
  total_old_len : Nat
  total_new_len : Nat
deriving DecidableEq

/-- Models `DiffSink::new(total_old_len, total_new_len)`. -/
def SinkState.new (total_old_len total_new_len : Nat) : SinkState :=
  ⟨[], 0, 0, total_old_len, total_new_len⟩

/-- Models `DiffSink::process_change`: emit a gap `Equal` if the change starts past
the last processed position, then classify the change as
Insert/Delete/Replace, then advance the cursors. -/
def SinkState.process_change (s : SinkState) (c : Change) : SinkState :=
  let s1 :=
    if c.bo > s.last_old_idx ∨ c.ao > s.last_new_idx then
      { s with ops := s.ops ++ [.Equal s.last_old_idx s.last_new_idx (c.bo - s.last_old_idx)] }
    else s
  let old_len := c.be - c.bo
  let new_len := c.ae - c.ao
  let op : DiffOp :=
    if old_len = 0 then .Insert c.bo c.ao new_len
    else if new_len = 0 then .Delete c.bo old_len c.ao
    else .Replace c.bo old_len c.ao new_len
  { s1 with
    ops := s1.ops ++ [op]
    last_old_idx := c.be
    last_new_idx := c.ae }

/-- Models `DiffSink::finish`: emit a trailing `Equal` when either cursor is short
of its total length; its `len` is computed from the old side only. -/
def SinkState.finish (s : SinkState) : List DiffOp :=
  if s.last_old_idx < s.total_old_len ∨ s.last_new_idx < s.total_new_len then
    s.ops ++ [.Equal s.last_old_idx s.last_new_idx (s.total_old_len - s.last_old_idx)]
  else s.ops

/-- The classification step of `process_change` in isolation: empty before
range → Insert, empty after range → Delete, otherwise Replace. -/
def classifyOp (c : Change) : DiffOp :=
  if c.be - c.bo = 0 then .Insert c.bo c.ao (c.ae - c.ao)
  else if c.ae - c.ao = 0 then .Delete c.bo (c.be - c.bo) c.ao
  else .Replace c.bo (c.be - c.bo) c.ao (c.ae - c.ao)

/-- Run the sink over a whole change stream: fold `process_change` over the
pairs starting from `DiffSink::new`, then `finish`. -/
def runSink (changes : List Change) (total_old_len total_new_len : Nat) : List DiffOp :=
  (changes.foldl SinkState.process_change (SinkState.new total_old_len total_new_len)).finish

/-- The byte range `B[O[start_idx] .. O[end_idx])` copied by
`save_merged_output` for a block of lines `[start_idx, end_idx)`: the start
byte is `line_offsets[start_idx]` (panic — `none` — when out of bounds), the
end byte is `line_offsets[end_idx]` when in bounds and `content.len()`
otherwise.  The final check models the Rust slice bound panic. -/
def copyRange (content : Bytes) (offsets : List Nat) (start_idx end_idx : Nat) :
    Option Bytes :=
  match offsets.get? start_idx with
  | none => none
  | some start_byte =>
    let end_byte := if end_idx < offsets.length then offsets.getD end_idx 0 else content.length
    if start_byte ≤ end_byte ∧ end_byte ≤ content.length then
      some (sliceRange content start_byte end_byte)
    else none

/-- The body of the per-hunk loop of `save_merged_output`: the bytes written
for one hunk under one resolution (`none` = panic). -/
def writeHunk (f1 f2 : LazyDiffView) (op : DiffOp) (res : Resolution) : Option Bytes :=
  match op with
  | .Equal old_index _ len =>
    copyRange f1.content f1.line_offsets old_index (old_index + len)
  | .Insert _ new_index new_len =>
    match res with
    | .PickRight | .PickBoth =>
      copyRange f2.content f2.line_offsets new_index (new_index + new_len)
    | _ => some []
  | .Delete old_index old_len _ =>
    match res with
    | .PickRight => some []
    | _ => copyRange f1.content f1.line_offsets old_index (old_index + old_len)
  | .Replace old_index old_len new_index new_len =>
    match res with
    | .PickRight =>
      copyRange f2.content f2.line_offsets new_index (new_index + new_len)
    | .PickBoth =>
      match copyRange f1.content f1.line_offsets old_index (old_index + old_len),
            copyRange f2.content f2.line_offsets new_index (new_index + new_len) with
      | some a, some b => some (a ++ b)
      | _, _ => none
    | _ => copyRange f1.content f1.line_offsets old_index (old_index + old_len)

/-- The hunk loop of `save_merged_output`: each hunk `i` is written with
`resolutions.get(i).copied().unwrap_or(Unresolved)`; the written chunks are
concatenated in hunk order (`none` = panic anywhere in the loop). -/
def saveLoop (f1 f2 : LazyDiffView) : List DiffOp → List Resolution → Option Bytes
  | [], _ => some []
  | op :: rest, rs =>
    match writeHunk f1 f2 op (rs.headD .Unresolved), saveLoop f1 f2 rest rs.tail with
    | some b, some more => some (b ++ more)
    | _, _ => none

/-- Models `save_merged_output` restricted to its byte-producing behaviour: the
byte stream written to the output file (`none` = panic). -/
def save_merged_output (f1 f2 : LazyDiffView) (diff_ops : List DiffOp)
    (resolutions : List Resolution) : Option Bytes :=
  saveLoop f1 f2 diff_ops resolutions

/-- The controller's state tag (`enum AppState`). -/
inductive AppState where
  | Loading
  | Done
  | Error (msg : String)
  | Saving (draft : String)
deriving DecidableEq

/-- The key codes handled by the `Saving` branch of `run_app`. -/
inductive SaveKey where
  | Enter
  | Esc
  | Backspace
  | Char (c : Char)
  | Other
deriving DecidableEq

/-- The controller state relevant to the save flow: the state tag and the
resolution vector. -/
structure Controller where
  state : AppState
  resolutions : List Resolution
deriving DecidableEq

/-- One keypress in the `AppState::Saving(input)` branch of `run_app`
(src/main.rs lines 358-377).  The writer's success or failure is abstracted
into `writeResult` (its in-memory byte behaviour is `save_merged_output`
above); the source restores `AppState::Done` before invoking the writer and
discards a write error (`if let Err(_e) = .. {}`).  Returns the updated
controller and `some path` when the merge writer was invoked on `path`. -/
def stepSaving (ctrl : Controller) (draft : String) (key : SaveKey)
    (writeResult : Except String Unit) : Controller × Option String :=
  match key, writeResult with
  | .Enter, .ok _ => ({ ctrl with state := .Done }, some draft)
  | .Enter, .error _ => ({ ctrl with state := .Done }, some draft)
  | .Esc, _ => ({ ctrl with state := .Done }, none)
  | .Backspace, _ => ({ ctrl with state := .Saving (draft.dropRight 1) }, none)
  | .Char c, _ => ({ ctrl with state := .Saving (draft.push c) }, none)
  | .Other, _ => ({ ctrl with state := .Saving draft }, none)

/-- The loop body of the `p` key handler: scan the index list (which is
`start_idx, start_idx-1, …, 0`), select the first non-Equal hunk and move
the scroll row to its start row.  `app.diff_ops[i]` and
`app.op_row_counts[i]` are panicking indexes (`none` = panic). -/
def pressPGo (diff_ops : List DiffOp) (op_row_counts : List Nat)
    (sel : Option Nat) (scroll : Nat) : List Nat → Option (Option Nat × Nat)
  | [] => some (sel, scroll)
  | i :: rest =>
    match diff_ops.get? i with
    | none => none
    | some op =>
      if op.isEqualOp then pressPGo diff_ops op_row_counts sel scroll rest
      else
        match op_row_counts.get? i with
        | none => none
        | some r => some (some i, r)

/-- The `KeyCode::Char('p')` handler of `run_app` in the `Done` state
(src/main.rs lines 393-403): `start_idx` is `i.saturating_sub(1)` for a
selection `Some(i)` and `0` for `None`; the loop walks `(0..=start_idx)`
in reverse.  Returns the new `(selected_op_index, scroll_offset)` pair
(`none` = panic). -/
def pressP (diff_ops : List DiffOp) (op_row_counts : List Nat)
    (sel : Option Nat) (scroll : Nat) : Option (Option Nat × Nat) :=
  let start_idx := match sel with | some i => i - 1 | none => 0
  pressPGo diff_ops op_row_counts sel scroll (List.range (start_idx + 1)).reverse

/-- Modelled from the spec: the line tokenization the diff engine runs on.
The engine itself (imara-diff) is an external collaborator not present in
the repository source; per §3 and §4.3 a file is a sequence of lines where
"line i's content slice is `B[o_i … o_{i+1})` with the trailing `'\n'`
included for interior lines", so the token list splits the bytes after each
newline, with a final unterminated token when the content does not end in a
newline.  `acc` accumulates the current line. -/
def splitLinesAux (acc : Bytes) : Bytes → List Bytes
  | [] => if acc.isEmpty then [] else [acc]
  | b :: rest =>
    if b = NL then (acc ++ [NL]) :: splitLinesAux [] rest
    else splitLinesAux (acc ++ [b]) rest

/-- Modelled from the spec: the token (line) list of a byte content. -/
def splitLines (content : Bytes) : List Bytes :=
  splitLinesAux [] content

/-- Modelled from the spec: the number of line tokens the diff engine sees. -/
def numTokens (content : Bytes) : Nat :=
  (splitLines content).length

/-- Is the content empty or terminated by a newline?  (Exactly the contents
whose offset array has one more entry than there are line tokens.) -/
def endsNL (content : Bytes) : Bool :=
  content.isEmpty || content.getLast? == some NL

/-- Modelled from the spec: validity of a change-pair stream, §4.3.  The
engine emits change pairs in ascending order; the gap before each change is
an unchanged region of equal length on both sides; ranges stay within the
token counts `Tl`/`Tr`; a change pair is never empty on both sides; and the
region after the last change is unchanged, hence of equal length on both
sides.  `lo`/`ln` are the positions already consumed. -/
def validChangesFrom (Tl Tr : Nat) (lo ln : Nat) : List Change → Bool
  | [] => decide (Tl - lo = Tr - ln) && decide (lo ≤ Tl) && decide (ln ≤ Tr)
  | c :: rest =>
    decide (lo ≤ c.bo) && decide (ln ≤ c.ao) && decide (c.bo - lo = c.ao - ln) &&
    decide (c.bo ≤ c.be) && decide (c.ao ≤ c.ae) &&
    decide (c.be ≤ Tl) && decide (c.ae ≤ Tr) &&
    (decide (c.bo < c.be) || decide (c.ao < c.ae)) &&
    validChangesFrom Tl Tr c.be c.ae rest

/-- The sum of left-consuming lengths over a hunk sequence. -/
def leftTotal (ops : List DiffOp) : Nat :=
  (ops.map DiffOp.leftConsumed).sum

/-- The sum of right-consuming lengths over a hunk sequence. -/
def rightTotal (ops : List DiffOp) : Nat :=
  (ops.map DiffOp.rightConsumed).sum

/-- No two `Equal` hunks are adjacent in the sequence. -/
def noAdjacentEquals (ops : List DiffOp) : Prop :=
  List.Chain' (fun a b => ¬(a.isEqualOp = true ∧ b.isEqualOp = true)) ops

/-- The reconstruction described by §8 invariant 1, from line `i` on, with
`m` interior lines remaining after `i`: each interior line contributes
`get_line(i)` followed by `'\n'`; the final line (`m = 0`) contributes
`get_line(i)` with no added terminator.  `none` when any `get_line` fails
(panics or returns `None`). -/
def concatFromAux (v : LazyDiffView) : Nat → Nat → Option Bytes
  | i, 0 =>
    match v.get_line i with
    | some (some l) => some l
    | _ => none
  | i, m + 1 =>
    match v.get_line i, concatFromAux v (i + 1) m with
    | some (some l), some rest => some (l ++ [NL] ++ rest)
    | _, _ => none

/-- The full reconstruction: `get_line(i) + '\n'` over the `len - 1`
interior lines, then the final line. -/
def concatAll (v : LazyDiffView) : Option Bytes :=
  concatFromAux v 0 (v.len - 1)

/-- The start byte the `get_line` code computes for line `i` of a
constructed view (`line_offsets[line_idx]`). -/
def rawLineStart (content : Bytes) (i : Nat) : Nat :=
  (lineOffsets content).getD i 0

/-- The end byte the `get_line` code computes for line `i` of a constructed
view: `line_offsets[i+1] - 1` for interior lines, `content.len()` for the
final one. -/
def rawLineEnd (content : Bytes) (i : Nat) : Nat :=
  if i + 1 < (lineOffsets content).length then (lineOffsets content).getD (i + 1) 0 - 1
  else content.length

/-- The byte slice of line `i` that `get_line` hands to `from_utf8` on a
constructed view (end clamped to the content length as in the source). -/
def rawLine (content : Bytes) (i : Nat) : Bytes :=
  sliceRange content (rawLineStart content i) (min (rawLineEnd content i) content.length)

/-- Scenario S1's left input `"A\nB\nC\n"` as bytes. -/
def s1Left : Bytes := [65, NL, 66, NL, 67, NL]

/-- Scenario S1's right input `"A\nMOD\nC\nD\n"` as bytes. -/
def s1Right : Bytes := [65, NL, 77, 79, 68, NL, 67, NL, 68, NL]

/-- Modelled from the spec: the change-pair stream the diff engine emits
for scenario S1 (§8): the substitution of left line 1 by right line 1 and
the insertion of right line 3, exactly the two difference regions of the
two line sequences. -/
def s1Changes : List Change := [⟨1, 2, 1, 2⟩, ⟨3, 3, 3, 4⟩]

/-- C1: the round-trip identity fails because the code panics.  For left
content `"A"` (one byte, no trailing newline) and right content `""`, the
diff engine must emit the single change pair deleting the left token (the
stream shown is the only valid one, as witnessed by `validChangesFrom`);
`DiffSink::finish` then appends the degenerate trailing
`Equal{old_index: 1, new_index: 0, len: 0}` because `last_new < total_new_len`,
and `save_merged_output` indexes `line_offsets[1]` on an offset array of
length 1 — an out-of-bounds panic (`none`) — instead of emitting the left
file's bytes `[65]`. -/
theorem c1_roundtrip_panics :
    validChangesFrom (numTokens [65]) (numTokens ([] : Bytes)) 0 0 [⟨0, 1, 0, 0⟩] = true ∧
    runSink [⟨0, 1, 0, 0⟩] (LazyDiffView.from_source [65]).len
        (LazyDiffView.from_source ([] : Bytes)).len = [.Delete 0 1 0, .Equal 1 0 0] ∧
    (LazyDiffView.from_source [65]).content = [65] ∧
    save_merged_output (LazyDiffView.from_source [65]) (LazyDiffView.from_source ([] : Bytes))
        (runSink [⟨0, 1, 0, 0⟩] (LazyDiffView.from_source [65]).len
          (LazyDiffView.from_source ([] : Bytes)).len)
        [.Unresolved, .Unresolved] = none := by
  decide

/-- C2: the accept-right identity fails because the code panics.  For left
content `"A\nB"` and right content `"A\n"`, the engine emits the single
deletion of left token 1; the hunks are
`[Equal(0,0,1), Delete(1,1,1), Equal(2,1,0)]`, and with the only non-Equal
hunk set to `PickRight` the writer panics on the degenerate trailing
`Equal` (`line_offsets[2]` on an array of length 2) instead of emitting the
right file's bytes `[65, 10]`. -/
theorem c2_accept_right_panics :
    validChangesFrom (numTokens [65, NL, 66]) (numTokens [65, NL]) 0 0 [⟨1, 2, 1, 1⟩] = true ∧
    runSink [⟨1, 2, 1, 1⟩] (LazyDiffView.from_source [65, NL, 66]).len
        (LazyDiffView.from_source [65, NL]).len
      = [.Equal 0 0 1, .Delete 1 1 1, .Equal 2 1 0] ∧
    (LazyDiffView.from_source [65, NL]).content = [65, NL] ∧
    save_merged_output (LazyDiffView.from_source [65, NL, 66]) (LazyDiffView.from_source [65, NL])
        (runSink [⟨1, 2, 1, 1⟩] (LazyDiffView.from_source [65, NL, 66]).len
          (LazyDiffView.from_source [65, NL]).len)
        [.Unresolved, .PickRight, .Unresolved] = none := by
  decide

/-- C7: scenario S1.  On left `"A\nB\nC\n"` and right `"A\nMOD\nC\nD\n"`
the pipeline produces exactly the four hunks `Equal(0,0,1)`,
`Replace(1,1,1,1)`, `Equal(2,2,1)`, `Insert(3,3,1)`, followed by the final
`Equal(3,4,1)` that `DiffSink::finish` emits because
`last_old = 3 < L_left = 4` (where `L_left` is `LazyDiffView::len`, the
offset-array length). -/
theorem c7_s1_hunks :
    validChangesFrom (numTokens s1Left) (numTokens s1Right) 0 0 s1Changes = true ∧
    runSink s1Changes (LazyDiffView.from_source s1Left).len
        (LazyDiffView.from_source s1Right).len
      = [.Equal 0 0 1, .Replace 1 1 1 1, .Equal 2 2 1, .Insert 3 3 1] ++ [.Equal 3 4 1] ∧
    3 < (LazyDiffView.from_source s1Left).len := by
  decide

/-- C8 counterexample: in the Done state with hunk sequence `[Insert(0,0,1)]`
(its first hunk non-Equal), row prefix `[0]` and no selection, pressing `p`
does not leave the selection at `None`: the handler scans `0..=0` and
selects hunk 0. -/
theorem c8_pressP_selects_first :
    pressP [.Insert 0 0 1] [0] none 0 = some (some 0, 0) ∧
    pressP [.Insert 0 0 1] [0] none 0 ≠ some (none, 0) := by
  decide

/-- C8 amended: pressing `p` with no selection examines only hunk 0: when
hunk 0 is `Equal` the selection stays `None` and the scroll row is
unchanged, and otherwise hunk 0 becomes selected with the scroll row moved
to its start row. -/
theorem c8_pressP_none_amended (diff_ops : List DiffOp) (op_row_counts : List Nat)
    (scroll : Nat) (op : DiffOp) (r : Nat)
    (hop : diff_ops.get? 0 = some op) (hr : op_row_counts.get? 0 = some r) :
    pressP diff_ops op_row_counts none scroll =
      if op.isEqualOp then some (none, scroll) else some (some 0, r) := by
  unfold pressP pressPGo
  simp only [List.range_succ, List.range_zero, List.nil_append, List.reverse_cons,
    List.reverse_nil, List.nil_append]
  rw [hop]
  by_cases h : op.isEqualOp
  · simp [h, pressPGo]
  · rw [List.get?_eq_getElem?] at hr
    simp [h, hr]

/-- Witness for the amended C8 theorem: with a single `Equal` hunk and
scroll row 5, pressing `p` from `None` changes nothing. -/
theorem c8_pressP_none_amended_witness :
    pressP [.Equal 0 0 1] [0] none 5 = some (none, 5) :=
  c8_pressP_none_amended [.Equal 0 0 1] [0] 5 (.Equal 0 0 1) 0 rfl rfl

/-- C9: in the `Saving{draft}` state, `Enter` invokes the merge writer on
the drafted filename and always returns the controller to `Done`,
regardless of the writer's result; `Esc` returns to `Done` without invoking
the writer; the resolution vector is unchanged in both cases. -/
theorem c9_saving_terminal_keys (ctrl : Controller) (draft : String)
    (wr : Except String Unit) :
    (stepSaving ctrl draft .Enter wr).1.state = .Done ∧
    (stepSaving ctrl draft .Enter wr).1.resolutions = ctrl.resolutions ∧
    (stepSaving ctrl draft .Enter wr).2 = some draft ∧
    (stepSaving ctrl draft .Esc wr).1.state = .Done ∧
    (stepSaving ctrl draft .Esc wr).1.resolutions = ctrl.resolutions ∧
    (stepSaving ctrl draft .Esc wr).2 = none := by
  cases wr <;> simp [stepSaving]

/-- C5 counterexample: for content `"A"` (one byte, no newline) the offset
array built by `from_source` is `[0]`; no `|B| = 1` sentinel is appended,
so its final element is not the content length. -/
theorem c5_no_sentinel :
    lineOffsets [65] = [0] ∧
    (lineOffsets [65]).getLast? ≠ some ([65] : Bytes).length := by
  decide

/-- C4 counterexample: for left content `"A\n"` and right content `"A"` the
engine sees one left token and one right token that differ, so it emits the
single substitution change pair; the resulting hunks are
`[Replace(0,1,0,1), Equal(1,1,1)]`, whose `new_len`/`len` sum is 2 while
the right file's line count (`LazyDiffView::len`) is 1. -/
theorem c4_right_sum_mismatch :
    validChangesFrom (numTokens [65, NL]) (numTokens [65]) 0 0 [⟨0, 1, 0, 1⟩] = true ∧
    runSink [⟨0, 1, 0, 1⟩] (LazyDiffView.from_source [65, NL]).len
        (LazyDiffView.from_source [65]).len = [.Replace 0 1 0 1, .Equal 1 1 1] ∧
    rightTotal (runSink [⟨0, 1, 0, 1⟩] (LazyDiffView.from_source [65, NL]).len
        (LazyDiffView.from_source [65]).len) = 2 ∧
    (LazyDiffView.from_source [65]).len = 1 ∧
    rightTotal (runSink [⟨0, 1, 0, 1⟩] (LazyDiffView.from_source [65, NL]).len
        (LazyDiffView.from_source [65]).len) ≠ (LazyDiffView.from_source [65]).len := by
  decide

/-- C3: the per-hunk merge policy of `save_merged_output` follows the §4.7
table.  An `Equal` hunk copies its left byte range under all four
resolutions; a `Delete` hunk copies its left range except under
`PickRight`, where it writes nothing; an `Insert` hunk writes nothing under
`Unresolved`/`PickLeft` and copies its right range under
`PickRight`/`PickBoth`; a `Replace` hunk copies its left range under
`Unresolved`/`PickLeft`, its right range under `PickRight`, and its left
range immediately followed by its right range under `PickBoth`. -/
theorem c3_per_hunk_policy (f1 f2 : LazyDiffView) (oi ni k ol nl : Nat) :
    (∀ res, save_merged_output f1 f2 [.Equal oi ni k] [res]
        = copyRange f1.content f1.line_offsets oi (oi + k)) ∧
    (∀ res, res ≠ .PickRight → save_merged_output f1 f2 [.Delete oi ol ni] [res]
        = copyRange f1.content f1.line_offsets oi (oi + ol)) ∧
    save_merged_output f1 f2 [.Delete oi ol ni] [.PickRight] = some [] ∧
    (∀ res, res = .Unresolved ∨ res = .PickLeft →
        save_merged_output f1 f2 [.Insert oi ni nl] [res] = some []) ∧
    (∀ res, res = .PickRight ∨ res = .PickBoth →
        save_merged_output f1 f2 [.Insert oi ni nl] [res]
          = copyRange f2.content f2.line_offsets ni (ni + nl)) ∧
    (∀ res, res = .Unresolved ∨ res = .PickLeft →
        save_merged_output f1 f2 [.Replace oi ol ni nl] [res]
          = copyRange f1.content f1.line_offsets oi (oi + ol)) ∧
    save_merged_output f1 f2 [.Replace oi ol ni nl] [.PickRight]
        = copyRange f2.content f2.line_offsets ni (ni + nl) ∧
    (∀ L R, copyRange f1.content f1.line_offsets oi (oi + ol) = some L →
        copyRange f2.content f2.line_offsets ni (ni + nl) = some R →
        save_merged_output f1 f2 [.Replace oi ol ni nl] [.PickBoth] = some (L ++ R)) := by
  refine ⟨?_, ?_, ?_, ?_, ?_, ?_, ?_, ?_⟩
  · intro res
    cases res <;>
      · simp only [save_merged_output, saveLoop, writeHunk, List.headD]
        cases copyRange f1.content f1.line_offsets oi (oi + k) <;> simp
  · intro res hres
    cases res <;> first
      | exact absurd rfl hres
      | · simp only [save_merged_output, saveLoop, writeHunk, List.headD]
          cases copyRange f1.content f1.line_offsets oi (oi + ol) <;> simp
  · simp [save_merged_output, saveLoop, writeHunk]
  · rintro res (rfl | rfl) <;> simp [save_merged_output, saveLoop, writeHunk]
  · rintro res (rfl | rfl) <;>
      · simp only [save_merged_output, saveLoop, writeHunk, List.headD]
        cases copyRange f2.content f2.line_offsets ni (ni + nl) <;> simp
  · rintro res (rfl | rfl) <;>
      · simp only [save_merged_output, saveLoop, writeHunk, List.headD]
        cases copyRange f1.content f1.line_offsets oi (oi + ol) <;> simp
  · simp only [save_merged_output, saveLoop, writeHunk, List.headD]
    cases copyRange f2.content f2.line_offsets ni (ni + nl) <;> simp
  · intro L R hL hR
    simp [save_merged_output, saveLoop, writeHunk, hL, hR]

/-- Witness for the C3 policy theorem: concrete files `"B\nC\n"` (left) and
`"X\n"` (right) with a `Replace` of left line 0 by right line 0 resolved as
`PickBoth` write the left range then the right range. -/
theorem c3_per_hunk_policy_witness :
    save_merged_output (LazyDiffView.from_source [66, NL, 67, NL])
        (LazyDiffView.from_source [88, NL]) [.Replace 0 1 0 1] [.PickBoth]
      = some ([66, NL] ++ [88, NL]) :=
  (c3_per_hunk_policy (LazyDiffView.from_source [66, NL, 67, NL])
      (LazyDiffView.from_source [88, NL]) 0 0 0 1 1).2.2.2.2.2.2.2
    [66, NL] [88, NL] (by decide) (by decide)

/-- Unfolding equation: a newline head contributes its position. -/
theorem newlinePositionsFrom_cons_nl (i : Nat) (rest : Bytes) :
    newlinePositionsFrom i (NL :: rest) = i :: newlinePositionsFrom (i + 1) rest := by
  simp [newlinePositionsFrom]

/-- Unfolding equation: a non-newline head contributes nothing. -/
theorem newlinePositionsFrom_cons_ne (i b : Nat) (rest : Bytes) (hb : b ≠ NL) :
    newlinePositionsFrom i (b :: rest) = newlinePositionsFrom (i + 1) rest := by
  simp [newlinePositionsFrom, hb]

/-- Membership in the newline scan: `p` is collected exactly when it is an
in-range index (relative to the running offset `i`) of a newline byte. -/
theorem mem_newlinePositionsFrom (B : Bytes) :
    ∀ i p, p ∈ newlinePositionsFrom i B ↔ i ≤ p ∧ B.get? (p - i) = some NL := by
  induction B with
  | nil => intro i p; simp [newlinePositionsFrom]
  | cons b rest ih =>
    intro i p
    by_cases hb : b = NL
    · subst hb
      rw [newlinePositionsFrom_cons_nl]
      simp only [List.mem_cons]
      constructor
      · rintro (rfl | hmem)
        · exact ⟨Nat.le_refl _, by simp⟩
        · obtain ⟨h1, h2⟩ := (ih (i + 1) p).mp hmem
          refine ⟨by omega, ?_⟩
          have he : p - i = (p - (i + 1)) + 1 := by omega
          rw [he]
          simpa using h2
      · rintro ⟨h1, h2⟩
        rcases Nat.eq_or_lt_of_le h1 with heq | hlt
        · exact Or.inl heq.symm
        · refine Or.inr ((ih (i + 1) p).mpr ⟨hlt, ?_⟩)
          have he : p - i = (p - (i + 1)) + 1 := by omega
          rw [he] at h2
          simpa using h2
    · rw [newlinePositionsFrom_cons_ne i b rest hb, ih (i + 1) p]
      constructor
      · rintro ⟨h1, h2⟩
        refine ⟨by omega, ?_⟩
        have he : p - i = (p - (i + 1)) + 1 := by omega
        rw [he]
        simpa using h2
      · rintro ⟨h1, h2⟩
        have hne : p ≠ i := by
          rintro rfl
          rw [Nat.sub_self] at h2
          simp only [List.get?_eq_getElem?] at h2
          simp at h2
          exact hb h2
        have h1' : i + 1 ≤ p := by omega
        refine ⟨h1', ?_⟩
        have he : p - i = (p - (i + 1)) + 1 := by omega
        rw [he] at h2
        simpa using h2

/-- Collected newline positions are below the end of the scanned range. -/
theorem newlinePositionsFrom_lt (B : Bytes) (i p : Nat)
    (h : p ∈ newlinePositionsFrom i B) : p < i + B.length := by
  obtain ⟨h1, h2⟩ := (mem_newlinePositionsFrom B i p).mp h
  rw [List.get?_eq_getElem?] at h2
  obtain ⟨hlt, -⟩ := List.getElem?_eq_some_iff.mp h2
  omega

/-- The newline scan produces strictly increasing positions. -/
theorem newlinePositionsFrom_pairwise (B : Bytes) :
    ∀ i, (newlinePositionsFrom i B).Pairwise (· < ·) := by
  induction B with
  | nil => intro i; simp [newlinePositionsFrom]
  | cons b rest ih =>
    intro i
    by_cases hb : b = NL
    · simp only [newlinePositionsFrom, if_pos hb]
      refine List.Pairwise.cons ?_ (ih (i + 1))
      intro q hq
      have := (mem_newlinePositionsFrom rest (i + 1) q).mp hq
      omega
    · simp only [newlinePositionsFrom, if_neg hb]
      exact ih (i + 1)

/-- The offset array is strictly monotonic. -/
theorem lineOffsets_pairwise (B : Bytes) : (lineOffsets B).Pairwise (· < ·) := by
  unfold lineOffsets
  refine List.Pairwise.cons ?_ ?_
  · intro x hx
    obtain ⟨p, _, rfl⟩ := List.mem_map.mp hx
    omega
  · rw [List.pairwise_map]
    exact (newlinePositionsFrom_pairwise B 0).imp (by omega)

/-- Every entry of the offset array is at most the content length. -/
theorem lineOffsets_le_length (B : Bytes) : ∀ x ∈ lineOffsets B, x ≤ B.length := by
  intro x hx
  rcases List.mem_cons.mp hx with rfl | hx
  · exact Nat.zero_le _
  · obtain ⟨p, hp, rfl⟩ := List.mem_map.mp hx
    have := newlinePositionsFrom_lt B 0 p hp
    omega

/-- Exact membership characterization of the offset array: its entries are
`0` together with `p + 1` for precisely the newline positions `p`. -/
theorem mem_lineOffsets (B : Bytes) (x : Nat) :
    x ∈ lineOffsets B ↔ x = 0 ∨ ∃ p, B.get? p = some NL ∧ x = p + 1 := by
  unfold lineOffsets
  rw [List.mem_cons]
  constructor
  · rintro (rfl | hx)
    · exact Or.inl rfl
    · obtain ⟨p, hp, rfl⟩ := List.mem_map.mp hx
      obtain ⟨-, h2⟩ := (mem_newlinePositionsFrom B 0 p).mp hp
      exact Or.inr ⟨p, by simpa using h2, rfl⟩
  · rintro (rfl | ⟨p, hp, rfl⟩)
    · exact Or.inl rfl
    · refine Or.inr (List.mem_map.mpr ⟨p, ?_, rfl⟩)
      exact (mem_newlinePositionsFrom B 0 p).mpr ⟨Nat.zero_le _, by simpa using hp⟩

/-- C5 amended: the offset array built by `from_source` starts with 0,
contains `p + 1` exactly for the positions `p` of `'\n'`, is strictly
monotonic, and all entries are at most `|B|`; no `|B|` sentinel is
appended (see the counterexample for content `"A"`). -/
theorem c5_offsets_amended (B : Bytes) :
    (lineOffsets B).head? = some 0 ∧
    (lineOffsets B).Pairwise (· < ·) ∧
    (∀ p, B.get? p = some NL → p + 1 ∈ lineOffsets B) ∧
    (∀ x ∈ lineOffsets B, x = 0 ∨ ∃ p, B.get? p = some NL ∧ x = p + 1) ∧
    (∀ x ∈ lineOffsets B, x ≤ B.length) := by
  refine ⟨rfl, lineOffsets_pairwise B, ?_, ?_, lineOffsets_le_length B⟩
  · intro p hp
    exact (mem_lineOffsets B (p + 1)).mpr (Or.inr ⟨p, hp, rfl⟩)
  · intro x hx
    exact (mem_lineOffsets B x).mp hx

/-- Witness for the amended C5 theorem: for content `"A\n"` the offset of
the newline at position 1 appears as `2 ∈ [0, 2]`, and the array is
strictly monotonic. -/
theorem c5_offsets_amended_witness :
    (1 : Nat) + 1 ∈ lineOffsets [65, NL] ∧ (lineOffsets [65, NL]).Pairwise (· < ·) :=
  ⟨(c5_offsets_amended [65, NL]).2.2.1 1 (by decide),
   (c5_offsets_amended [65, NL]).2.1⟩

/-- Any in-range entry of the offset array is at most the content length. -/
theorem lineOffsets_getD_le (B : Bytes) (i : Nat) (h : i < (lineOffsets B).length) :
    (lineOffsets B).getD i 0 ≤ B.length := by
  rw [List.getD_eq_getElem?_getD, List.getElem?_eq_getElem h]
  exact lineOffsets_le_length B _ (List.getElem_mem h)

/-- Consecutive entries of the offset array are strictly increasing. -/
theorem lineOffsets_getD_lt (B : Bytes) (i : Nat) (h : i + 1 < (lineOffsets B).length) :
    (lineOffsets B).getD i 0 < (lineOffsets B).getD (i + 1) 0 := by
  have h' : i < (lineOffsets B).length := by omega
  have e1 : (lineOffsets B).getD i 0 = (lineOffsets B).get ⟨i, h'⟩ := by
    rw [List.getD_eq_getElem?_getD, List.getElem?_eq_getElem h']
    rfl
  have e2 : (lineOffsets B).getD (i + 1) 0 = (lineOffsets B).get ⟨i + 1, h⟩ := by
    rw [List.getD_eq_getElem?_getD, List.getElem?_eq_getElem h]
    rfl
  rw [e1, e2]
  exact (List.pairwise_iff_get.mp (lineOffsets_pairwise B)) ⟨i, h'⟩ ⟨i + 1, h⟩ (by simp)

/-- Entries of the offset array past index 0 are positive. -/
theorem lineOffsets_getD_pos (B : Bytes) (i : Nat) (h0 : 0 < i)
    (h : i < (lineOffsets B).length) : 1 ≤ (lineOffsets B).getD i 0 := by
  have hl : (0 : Nat) < (lineOffsets B).length := by omega
  have e1 : (lineOffsets B).getD i 0 = (lineOffsets B).get ⟨i, h⟩ := by
    rw [List.getD_eq_getElem?_getD, List.getElem?_eq_getElem h]
    rfl
  have e0 : (lineOffsets B).get ⟨0, hl⟩ = 0 := rfl
  have hlt := (List.pairwise_iff_get.mp (lineOffsets_pairwise B)) ⟨0, hl⟩ ⟨i, h⟩ h0
  rw [e0] at hlt
  omega

/-- The start byte `get_line` computes for an in-range line never exceeds
the end byte it computes. -/
theorem rawLineStart_le_rawLineEnd (B : Bytes) (i : Nat)
    (h : i < (lineOffsets B).length) :
    rawLineStart B i ≤ rawLineEnd B i := by
  unfold rawLineStart rawLineEnd
  by_cases h2 : i + 1 < (lineOffsets B).length
  · rw [if_pos h2]
    have hlt := lineOffsets_getD_lt B i h2
    have hpos := lineOffsets_getD_pos B (i + 1) (by omega) h2
    omega
  · rw [if_neg h2]
    exact lineOffsets_getD_le B i h

/-- Evaluation of `get_line` on a constructed view: the function never
panics; it returns `None` past the offset array or on invalid UTF-8 and
the line's byte slice otherwise. -/
theorem get_line_from_source (B : Bytes) (i : Nat) :
    (LazyDiffView.from_source B).get_line i =
      some (if (lineOffsets B).length ≤ i then none
            else if utf8Valid (rawLine B i) then some (rawLine B i) else none) := by
  by_cases hlen : (lineOffsets B).length ≤ i
  · simp [LazyDiffView.get_line, LazyDiffView.from_source, hlen]
  · have hi : i < (lineOffsets B).length := by omega
    have hx : (lineOffsets B).get? i = some ((lineOffsets B).getD i 0) := by
      rw [List.get?_eq_getElem?, List.getElem?_eq_getElem hi,
        List.getD_eq_getElem?_getD, List.getElem?_eq_getElem hi]
      rfl
    have hse : rawLineStart B i ≤ rawLineEnd B i := rawLineStart_le_rawLineEnd B i hi
    have hsl : rawLineStart B i ≤ B.length := lineOffsets_getD_le B i hi
    have hse' : (lineOffsets B).getD i 0 ≤ rawLineEnd B i := hse
    have hsl' : (lineOffsets B).getD i 0 ≤ B.length := hsl
    have hre : (if i + 1 < (lineOffsets B).length then (lineOffsets B).getD (i + 1) 0 - 1
        else B.length) = rawLineEnd B i := rfl
    simp only [LazyDiffView.get_line, LazyDiffView.from_source, if_neg hlen, hx]
    have hnotgt : ¬ (lineOffsets B).getD i 0 >
        (if i + 1 < (lineOffsets B).length then (lineOffsets B).getD (i + 1) 0 - 1
         else B.length) := by
      rw [hre]
      omega
    rw [if_neg hnotgt]
    have hnotgt2 : ¬ (lineOffsets B).getD i 0 >
        min (if i + 1 < (lineOffsets B).length then (lineOffsets B).getD (i + 1) 0 - 1
             else B.length) B.length := by
      rw [hre]
      have := Nat.le_min.mpr ⟨hse', hsl'⟩
      omega
    rw [if_neg hnotgt2]
    rfl

/-- C10: totality of `get_line` on every constructed `FileView`.  For every
content `B` and every index `i`, `get_line` returns without panicking (the
outer value is always `some`): `None` when `i` is at or past the offset
array's length or when the line's bytes are not valid UTF-8, and `Some` of
the line's slice (trailing newline excluded) otherwise; the `start > end`
guard that would yield `Some("")` never fires on a constructed view, as
`rawLineStart_le_rawLineEnd` shows. -/
theorem c10_get_line_total (B : Bytes) (i : Nat) :
    (LazyDiffView.from_source B).get_line i =
      some (if (lineOffsets B).length ≤ i then none
            else if utf8Valid (rawLine B i) then some (rawLine B i) else none) :=
  get_line_from_source B i

/-- Just before any offset entry past index 0 sits a newline byte. -/
theorem lineOffsets_newline_before (B : Bytes) (k : Nat) (h0 : 0 < k)
    (h : k < (lineOffsets B).length) :
    B.get? ((lineOffsets B).getD k 0 - 1) = some NL := by
  have hmem : (lineOffsets B).getD k 0 ∈ lineOffsets B := by
    rw [List.getD_eq_getElem?_getD, List.getElem?_eq_getElem h]
    exact List.getElem_mem h
  rcases (mem_lineOffsets B _).mp hmem with hzero | ⟨p, hp, hpe⟩
  · have := lineOffsets_getD_pos B k h0 h
    omega
  · rw [hpe]
    simpa using hp

/-- The slice of an interior line followed by its newline and the rest of
the content from the next offset reassembles the content from this line's
offset. -/
theorem rawLine_append_drop (B : Bytes) (i : Nat)
    (h : i + 1 < (lineOffsets B).length) :
    rawLine B i ++ [NL] ++ B.drop ((lineOffsets B).getD (i + 1) 0)
      = B.drop ((lineOffsets B).getD i 0) := by
  have hi : i < (lineOffsets B).length := by omega
  have hst : (lineOffsets B).getD i 0 < (lineOffsets B).getD (i + 1) 0 :=
    lineOffsets_getD_lt B i h
  have hpos : 1 ≤ (lineOffsets B).getD (i + 1) 0 :=
    lineOffsets_getD_pos B (i + 1) (by omega) h
  have hle : (lineOffsets B).getD (i + 1) 0 ≤ B.length :=
    lineOffsets_getD_le B (i + 1) h
  have hnl := lineOffsets_newline_before B (i + 1) (by omega) h
  set s := (lineOffsets B).getD i 0 with hs
  set t := (lineOffsets B).getD (i + 1) 0 with ht
  have hend : rawLineEnd B i = t - 1 := by
    unfold rawLineEnd
    rw [if_pos h]
  have hraw : rawLine B i = (B.drop s).take (t - 1 - s) := by
    unfold rawLine sliceRange
    rw [hend]
    have hmin : min (t - 1) B.length = t - 1 := by omega
    rw [hmin]
    have hsr : rawLineStart B i = s := rfl
    rw [hsr]
  have htl : t - 1 < B.length := by omega
  have hb : B[t - 1] = NL := by
    rw [List.get?_eq_getElem?, List.getElem?_eq_getElem htl] at hnl
    exact Option.some_injective _ hnl
  calc rawLine B i ++ [NL] ++ B.drop t
      = (B.drop s).take (t - 1 - s) ++ ([NL] ++ B.drop t) := by
        rw [hraw, List.append_assoc]
    _ = (B.drop s).take (t - 1 - s) ++ B.drop (t - 1) := by
        rw [List.drop_eq_getElem_cons htl, hb]
        have : (t - 1) + 1 = t := by omega
        rw [this]
        rfl
    _ = (B.drop s).take (t - 1 - s) ++ (B.drop s).drop (t - 1 - s) := by
        rw [List.drop_drop]
        have : s + (t - 1 - s) = t - 1 := by omega
        rw [this]
    _ = B.drop s := List.take_append_drop _ _

/-- The slice of the final line is the remainder of the content from its
offset. -/
theorem rawLine_last (B : Bytes) (i : Nat)
    (h : ¬ i + 1 < (lineOffsets B).length) :
    rawLine B i = B.drop ((lineOffsets B).getD i 0) := by
  have hend : rawLineEnd B i = B.length := by
    unfold rawLineEnd
    rw [if_neg h]
  unfold rawLine sliceRange
  rw [hend, Nat.min_self]
  exact List.take_of_length_le (by rw [List.length_drop])

/-- Successful reconstruction from line `i` (with `m` interior lines left)
yields the content from line `i`'s offset on. -/
theorem concatFromAux_drop (B : Bytes) :
    ∀ m i, i + m + 1 = (lineOffsets B).length →
      ∀ r, concatFromAux (LazyDiffView.from_source B) i m = some r →
        r = B.drop ((lineOffsets B).getD i 0) := by
  intro m
  induction m with
  | zero =>
    intro i hlen r hr
    unfold concatFromAux at hr
    rw [get_line_from_source, if_neg (by omega)] at hr
    by_cases hu : utf8Valid (rawLine B i)
    · rw [if_pos hu] at hr
      simp only [Option.some.injEq] at hr
      rw [← hr]
      exact rawLine_last B i (by omega)
    · rw [if_neg hu] at hr
      simp at hr
  | succ m ih =>
    intro i hlen r hr
    unfold concatFromAux at hr
    rw [get_line_from_source, if_neg (by omega)] at hr
    by_cases hu : utf8Valid (rawLine B i)
    · rw [if_pos hu] at hr
      cases hc : concatFromAux (LazyDiffView.from_source B) (i + 1) m with
      | none => rw [hc] at hr; simp at hr
      | some rest =>
        rw [hc] at hr
        simp only [Option.some.injEq] at hr
        have hrest := ih (i + 1) (by omega) rest hc
        rw [← hr, hrest]
        exact rawLine_append_drop B i (by omega)
    · rw [if_neg hu] at hr
      simp at hr

/-- C6: line reconstruction identity.  Whenever the reconstruction —
`get_line(i)` plus `'\n'` over all interior lines, then the final line —
succeeds on a constructed view, it reproduces the stored byte content
exactly (the stored content being the bytes after any small-file CRLF
normalization or JSON pretty-printing). -/
theorem c6_line_reconstruction (B : Bytes) (r : Bytes)
    (h : concatAll (LazyDiffView.from_source B) = some r) : r = B := by
  have hlen : (0 : Nat) + ((lineOffsets B).length - 1) + 1 = (lineOffsets B).length := by
    have : 1 ≤ (lineOffsets B).length := by
      unfold lineOffsets
      simp
    omega
  have := concatFromAux_drop B ((lineOffsets B).length - 1) 0 hlen r h
  simpa [lineOffsets] using this

/-- Witness for C6: the reconstruction of `"A\nB"` succeeds and equals the
content. -/
theorem c6_line_reconstruction_witness :
    concatAll (LazyDiffView.from_source [65, NL, 66]) = some [65, NL, 66] ∧
    ([65, NL, 66] : Bytes) = [65, NL, 66] :=
  ⟨by decide, c6_line_reconstruction [65, NL, 66] [65, NL, 66] (by decide)⟩

/-- Unfolding equation of the line splitter on the empty suffix. -/
theorem splitLinesAux_nil (acc : Bytes) :
    splitLinesAux acc [] = if acc.isEmpty then [] else [acc] := rfl

/-- Unfolding equation of the line splitter on a cons. -/
theorem splitLinesAux_cons (acc : Bytes) (b : Nat) (rest : Bytes) :
    splitLinesAux acc (b :: rest) =
      if b = NL then (acc ++ [NL]) :: splitLinesAux [] rest
      else splitLinesAux (acc ++ [b]) rest := rfl

/-- On a nonempty suffix the number of produced tokens does not depend on
the accumulated prefix. -/
theorem splitLinesAux_length_congr :
    ∀ (B : Bytes) (acc acc' : Bytes), B ≠ [] →
      (splitLinesAux acc B).length = (splitLinesAux acc' B).length := by
  intro B
  induction B with
  | nil => intro acc acc' h; exact absurd rfl h
  | cons b rest ih =>
    intro acc acc' _
    by_cases hb : b = NL
    · rw [splitLinesAux_cons, splitLinesAux_cons, if_pos hb, if_pos hb]
      simp
    · rw [splitLinesAux_cons, splitLinesAux_cons, if_neg hb, if_neg hb]
      cases rest with
      | nil =>
        rw [splitLinesAux_nil, splitLinesAux_nil]
        simp
      | cons c r' => exact ih (acc ++ [b]) (acc' ++ [b]) (by simp)

/-- Token count and trailing-newline class determine the newline count:
`numTokens B + (1 when B is empty or newline-terminated) = count '\n' + 1`. -/
theorem numTokens_plus (B : Bytes) :
    numTokens B + (if endsNL B then 1 else 0) = B.count NL + 1 := by
  induction B with
  | nil => simp [numTokens, splitLines, splitLinesAux_nil, endsNL]
  | cons b rest ih =>
    by_cases hb : b = NL
    · subst hb
      cases rest with
      | nil => simp [numTokens, splitLines, splitLinesAux_cons, splitLinesAux_nil, endsNL]
      | cons c r' =>
        have h1 : numTokens (NL :: c :: r') = 1 + numTokens (c :: r') := by
          unfold numTokens splitLines
          rw [splitLinesAux_cons, if_pos rfl]
          simp [Nat.add_comm]
        have h2 : endsNL (NL :: c :: r') = endsNL (c :: r') := by
          simp [endsNL, List.getLast?_cons_cons]
        have h3 : (NL :: c :: r').count NL = (c :: r').count NL + 1 := by
          simp [List.count_cons]
        rw [h1, h2, h3]
        omega
    · cases rest with
      | nil =>
        have h1 : numTokens [b] = 1 := by
          unfold numTokens splitLines
          rw [splitLinesAux_cons, if_neg hb, splitLinesAux_nil]
          simp
        have h2 : endsNL [b] = false := by
          simp [endsNL, hb]
        have h3 : ([b] : Bytes).count NL = 0 := by
          simp [List.count_cons, hb]
        rw [h1, h2, h3]
        simp
      | cons c r' =>
        have h1 : numTokens (b :: c :: r') = numTokens (c :: r') := by
          unfold numTokens splitLines
          rw [splitLinesAux_cons, if_neg hb]
          exact splitLinesAux_length_congr (c :: r') [b] [] (by simp)
        have h2 : endsNL (b :: c :: r') = endsNL (c :: r') := by
          simp [endsNL, List.getLast?_cons_cons]
        have h3 : (b :: c :: r').count NL = (c :: r').count NL := by
          simp [List.count_cons, hb]
        rw [h1, h2, h3]
        exact ih

/-- The newline scan finds one position per newline byte. -/
theorem newlinePositionsFrom_length (B : Bytes) :
    ∀ i, (newlinePositionsFrom i B).length = B.count NL := by
  induction B with
  | nil => intro i; simp [newlinePositionsFrom]
  | cons b rest ih =>
    intro i
    by_cases hb : b = NL
    · subst hb
      rw [newlinePositionsFrom_cons_nl]
      simp [List.count_cons, ih (i + 1)]
    · rw [newlinePositionsFrom_cons_ne i b rest hb]
      simp [List.count_cons, hb, ih (i + 1)]

/-- The offset-array length is the newline count plus one. -/
theorem lineOffsets_length_eq (B : Bytes) :
    (lineOffsets B).length = B.count NL + 1 := by
  unfold lineOffsets
  simp [newlinePositionsFrom_length B 0]

/-- The offset-array length is the token count plus one exactly when the
content is empty or newline-terminated. -/
theorem lineOffsets_length_tokens (B : Bytes) :
    (lineOffsets B).length = numTokens B + (if endsNL B then 1 else 0) := by
  rw [lineOffsets_length_eq, ← numTokens_plus B]

/-- The cursors of `process_change` always advance to the change's ends. -/
theorem process_change_last (s : SinkState) (c : Change) :
    (s.process_change c).last_old_idx = c.be ∧
    (s.process_change c).last_new_idx = c.ae ∧
    (s.process_change c).total_old_len = s.total_old_len ∧
    (s.process_change c).total_new_len = s.total_new_len := by
  simp only [SinkState.process_change]
  split <;> simp

/-- The ops list produced by one `process_change` step: the optional gap
`Equal` followed by the classified change op. -/
theorem process_change_ops (s : SinkState) (c : Change) :
    (s.process_change c).ops =
      (if c.bo > s.last_old_idx ∨ c.ao > s.last_new_idx
       then s.ops ++ [DiffOp.Equal s.last_old_idx s.last_new_idx (c.bo - s.last_old_idx)]
       else s.ops) ++ [classifyOp c] := by
  simp only [SinkState.process_change, classifyOp]
  split <;> simp

/-- The classified op consumes the before range on the left. -/
theorem classifyOp_leftConsumed (c : Change) : (classifyOp c).leftConsumed = c.be - c.bo := by
  unfold classifyOp
  by_cases h1 : c.be - c.bo = 0 <;> by_cases h2 : c.ae - c.ao = 0 <;>
    simp [h1, h2, DiffOp.leftConsumed]

/-- The classified op consumes the after range on the right. -/
theorem classifyOp_rightConsumed (c : Change) : (classifyOp c).rightConsumed = c.ae - c.ao := by
  unfold classifyOp
  by_cases h1 : c.be - c.bo = 0 <;> by_cases h2 : c.ae - c.ao = 0 <;>
    simp [h1, h2, DiffOp.rightConsumed]

/-- The classified op is never an `Equal`. -/
theorem classifyOp_not_equal (c : Change) : (classifyOp c).isEqualOp = false := by
  unfold classifyOp
  by_cases h1 : c.be - c.bo = 0 <;> by_cases h2 : c.ae - c.ao = 0 <;>
    simp [h1, h2, DiffOp.isEqualOp]

/-- Sums over appended op lists. -/
theorem leftTotal_append (l1 l2 : List DiffOp) :
    leftTotal (l1 ++ l2) = leftTotal l1 + leftTotal l2 := by
  simp [leftTotal, List.sum_append]

/-- Sums over appended op lists, right side. -/
theorem rightTotal_append (l1 l2 : List DiffOp) :
    rightTotal (l1 ++ l2) = rightTotal l1 + rightTotal l2 := by
  simp [rightTotal, List.sum_append]

/-- The left sum of a singleton. -/
theorem leftTotal_single (op : DiffOp) : leftTotal [op] = op.leftConsumed := by
  simp [leftTotal]

/-- The right sum of a singleton. -/
theorem rightTotal_single (op : DiffOp) : rightTotal [op] = op.rightConsumed := by
  simp [rightTotal]

/-- Appending a non-`Equal` op to a list with no adjacent `Equal`s keeps
the property, with the new op as last element. -/
theorem noAdjacentEquals_append_op (l : List DiffOp) (op : DiffOp)
    (hop : op.isEqualOp = false) (hl : noAdjacentEquals l) :
    noAdjacentEquals (l ++ [op]) := by
  unfold noAdjacentEquals at hl ⊢
  rw [List.chain'_append]
  refine ⟨hl, List.chain'_singleton op, ?_⟩
  intro x _ y hy
  simp only [List.head?_cons, Option.mem_def, Option.some.injEq] at hy
  subst hy
  rintro ⟨-, h2⟩
  rw [hop] at h2
  exact Bool.false_ne_true h2

/-- Appending an `Equal` op after a list whose last element is not `Equal`
keeps the no-adjacent-`Equal`s property. -/
theorem noAdjacentEquals_append_equal (l : List DiffOp) (op : DiffOp)
    (hl : noAdjacentEquals l) (hlast : ∀ x ∈ l.getLast?, x.isEqualOp = false) :
    noAdjacentEquals (l ++ [op]) := by
  unfold noAdjacentEquals at hl ⊢
  rw [List.chain'_append]
  refine ⟨hl, List.chain'_singleton op, ?_⟩
  intro x hx y _
  rintro ⟨h1, -⟩
  rw [hlast x hx] at h1
  exact Bool.false_ne_true h1

/-- Folding `process_change` over a valid change stream preserves the sink
invariants: the accumulated left/right sums equal the cursors, the cursors
stay within the token counts with equal remainders, the last op is never an
`Equal`, no two `Equal`s are adjacent, and the totals are untouched. -/
theorem sink_fold (Tl Tr : Nat) :
    ∀ (cs : List Change) (s : SinkState),
      validChangesFrom Tl Tr s.last_old_idx s.last_new_idx cs = true →
      leftTotal s.ops = s.last_old_idx →
      rightTotal s.ops = s.last_new_idx →
      (∀ x ∈ s.ops.getLast?, x.isEqualOp = false) →
      noAdjacentEquals s.ops →
      leftTotal (cs.foldl SinkState.process_change s).ops
          = (cs.foldl SinkState.process_change s).last_old_idx ∧
      rightTotal (cs.foldl SinkState.process_change s).ops
          = (cs.foldl SinkState.process_change s).last_new_idx ∧
      (cs.foldl SinkState.process_change s).last_old_idx ≤ Tl ∧
      (cs.foldl SinkState.process_change s).last_new_idx ≤ Tr ∧
      Tl - (cs.foldl SinkState.process_change s).last_old_idx
          = Tr - (cs.foldl SinkState.process_change s).last_new_idx ∧
      (∀ x ∈ (cs.foldl SinkState.process_change s).ops.getLast?, x.isEqualOp = false) ∧
      noAdjacentEquals (cs.foldl SinkState.process_change s).ops ∧
      (cs.foldl SinkState.process_change s).total_old_len = s.total_old_len ∧
      (cs.foldl SinkState.process_change s).total_new_len = s.total_new_len := by
  intro cs
  induction cs with
  | nil =>
    intro s hv h1 h2 h3 h4
    simp only [validChangesFrom, Bool.and_eq_true, decide_eq_true_eq] at hv
    simp only [List.foldl_nil]
    refine ⟨h1, h2, ?_, ?_, ?_, h3, h4, trivial, trivial⟩ <;> omega
  | cons c rest ih =>
    intro s hv h1 h2 h3 h4
    simp only [validChangesFrom, Bool.and_eq_true, Bool.or_eq_true, decide_eq_true_eq] at hv
    obtain ⟨⟨⟨⟨⟨⟨⟨⟨hlo, hln⟩, hgap⟩, hbobe⟩, haoae⟩, hbeTl⟩, haeTr⟩, hne⟩, hrest⟩ := hv
    simp only [List.foldl_cons]
    obtain ⟨hplo, hpln, hpto, hptn⟩ := process_change_last s c
    have hops := process_change_ops s c
    have hlc := classifyOp_leftConsumed c
    have hrc := classifyOp_rightConsumed c
    have hneq := classifyOp_not_equal c
    have inv1 : leftTotal (s.process_change c).ops = (s.process_change c).last_old_idx := by
      rw [hops, hplo]
      by_cases hcond : c.bo > s.last_old_idx ∨ c.ao > s.last_new_idx
      · rw [if_pos hcond, leftTotal_append, leftTotal_append, leftTotal_single,
          leftTotal_single, h1, hlc]
        simp only [DiffOp.leftConsumed]
        omega
      · rw [if_neg hcond, leftTotal_append, leftTotal_single, h1, hlc]
        push_neg at hcond
        omega
    have inv2 : rightTotal (s.process_change c).ops = (s.process_change c).last_new_idx := by
      rw [hops, hpln]
      by_cases hcond : c.bo > s.last_old_idx ∨ c.ao > s.last_new_idx
      · rw [if_pos hcond, rightTotal_append, rightTotal_append, rightTotal_single,
          rightTotal_single, h2, hrc]
        simp only [DiffOp.rightConsumed]
        omega
      · rw [if_neg hcond, rightTotal_append, rightTotal_single, h2, hrc]
        push_neg at hcond
        omega
    have inv3 : ∀ x ∈ (s.process_change c).ops.getLast?, x.isEqualOp = false := by
      rw [hops]
      intro x hx
      rw [List.getLast?_concat] at hx
      simp only [Option.mem_def, Option.some.injEq] at hx
      subst hx
      exact hneq
    have inv4 : noAdjacentEquals (s.process_change c).ops := by
      rw [hops]
      by_cases hcond : c.bo > s.last_old_idx ∨ c.ao > s.last_new_idx
      · rw [if_pos hcond]
        refine noAdjacentEquals_append_op _ _ hneq ?_
        exact noAdjacentEquals_append_equal _ _ h4 h3
      · rw [if_neg hcond]
        exact noAdjacentEquals_append_op _ _ hneq h4
    have hrest' : validChangesFrom Tl Tr (s.process_change c).last_old_idx
        (s.process_change c).last_new_idx rest = true := by
      rw [hplo, hpln]
      exact hrest
    have := ih (s.process_change c) hrest' inv1 inv2 inv3 inv4
    refine ⟨this.1, this.2.1, this.2.2.1, this.2.2.2.1, this.2.2.2.2.1,
      this.2.2.2.2.2.1, this.2.2.2.2.2.2.1, ?_, ?_⟩
    · rw [this.2.2.2.2.2.2.2.1, hpto]
    · rw [this.2.2.2.2.2.2.2.2, hptn]

/-- C4 amended: for every pair of contents and every valid change stream,
the hunk sequence the sink produces partitions the left file — the sum of
`len` over Equal hunks plus `old_len` over Delete/Replace hunks equals the
left file's `LazyDiffView::len` — and no two Equal hunks are adjacent; the
analogous `new_len` sum equals the right file's `LazyDiffView::len`
whenever the two contents agree on being empty-or-newline-terminated (the
trailing Equal's `len` is computed from the old side only, so the right
sum can otherwise be off by one, as the counterexample shows). -/
theorem c4_partition_amended (Bl Br : Bytes) (cs : List Change)
    (hv : validChangesFrom (numTokens Bl) (numTokens Br) 0 0 cs = true) :
    leftTotal (runSink cs (LazyDiffView.from_source Bl).len
        (LazyDiffView.from_source Br).len) = (LazyDiffView.from_source Bl).len ∧
    noAdjacentEquals (runSink cs (LazyDiffView.from_source Bl).len
        (LazyDiffView.from_source Br).len) ∧
    (endsNL Bl = endsNL Br →
      rightTotal (runSink cs (LazyDiffView.from_source Bl).len
          (LazyDiffView.from_source Br).len) = (LazyDiffView.from_source Br).len) := by
  have hLl : (LazyDiffView.from_source Bl).len
      = numTokens Bl + (if endsNL Bl then 1 else 0) := lineOffsets_length_tokens Bl
  have hLr : (LazyDiffView.from_source Br).len
      = numTokens Br + (if endsNL Br then 1 else 0) := lineOffsets_length_tokens Br
  set dl := (if endsNL Bl then 1 else 0 : Nat) with hdl
  set dr := (if endsNL Br then 1 else 0 : Nat) with hdr
  have hfold := sink_fold (numTokens Bl) (numTokens Br) cs
      (SinkState.new (LazyDiffView.from_source Bl).len (LazyDiffView.from_source Br).len)
      hv rfl rfl (by simp [SinkState.new]) (by simp [noAdjacentEquals, SinkState.new])
  obtain ⟨f1, f2, f3, f4, f5, f6, f7, f8, f9⟩ := hfold
  set F := cs.foldl SinkState.process_change
      (SinkState.new (LazyDiffView.from_source Bl).len (LazyDiffView.from_source Br).len)
    with hFdef
  have hto : F.total_old_len = (LazyDiffView.from_source Bl).len := f8
  have htn : F.total_new_len = (LazyDiffView.from_source Br).len := f9
  have hrun : runSink cs (LazyDiffView.from_source Bl).len (LazyDiffView.from_source Br).len
      = F.finish := rfl
  rw [hrun]
  unfold SinkState.finish
  by_cases hfin : F.last_old_idx < F.total_old_len ∨ F.last_new_idx < F.total_new_len
  · rw [if_pos hfin]
    rw [hto, htn] at hfin
    constructor
    · rw [leftTotal_append, leftTotal_single, f1]
      simp only [DiffOp.leftConsumed]
      rw [hto]
      omega
    constructor
    · exact noAdjacentEquals_append_equal F.ops _ f7 f6
    · intro hδ
      have hdd : dl = dr := by rw [hdl, hdr, hδ]
      rw [rightTotal_append, rightTotal_single, f2]
      simp only [DiffOp.rightConsumed]
      rw [hto]
      omega
  · rw [if_neg hfin]
    push_neg at hfin
    rw [hto, htn] at hfin
    refine ⟨?_, f7, fun _ => ?_⟩
    · rw [f1]
      omega
    · rw [f2]
      omega

/-- Witness for the amended C4 theorem: both `"A\n"` and `"B\n"` are
newline-terminated; the single substitution change yields hunks whose left
and right sums both equal the respective offset-array lengths (2). -/
theorem c4_partition_amended_witness :
    leftTotal (runSink [⟨0, 1, 0, 1⟩] (LazyDiffView.from_source [65, NL]).len
        (LazyDiffView.from_source [66, NL]).len) = (LazyDiffView.from_source [65, NL]).len ∧
    rightTotal (runSink [⟨0, 1, 0, 1⟩] (LazyDiffView.from_source [65, NL]).len
        (LazyDiffView.from_source [66, NL]).len) = (LazyDiffView.from_source [66, NL]).len :=
  ⟨(c4_partition_amended [65, NL] [66, NL] [⟨0, 1, 0, 1⟩] (by decide)).1,
   (c4_partition_amended [65, NL] [66, NL] [⟨0, 1, 0, 1⟩] (by decide)).2.2 (by decide)⟩

end JsonDiff
